import Mathlib

/-!
# Verification of the `please` build-tool sources against their specification

Shallow embedding of the Go sources (the test-main templater in package
`buildgo`, the `go get` helper in package `remote`) and, for the build-engine
subsystem that the specification describes but whose code is not part of this
excerpt, models written from the specification's own words (each such
definition is marked `Modelled from the spec:`).

Go strings are modelled as `List Char` (a rune sequence); Go `int` values that
only ever hold small non-negative quantities are modelled as `Nat`.
-/

namespace buildgo

/-- `utf8.RuneError`, the replacement character returned by
`utf8.DecodeRuneInString` on an empty string. -/
def runeError : Char := Char.ofNat 0xFFFD

/-- `isTest` from the Go test-main templater (`part_001`, lines 142-151):
a function name looks like a test when it starts with the given prefix
(`strings.HasPrefix`) and either nothing follows the prefix or the first rune
after it is not lowercase. `isLower` abstracts Go's `unicode.IsLower` table;
byte slicing at `len(pfx)` coincides with rune slicing because a rune-sequence
prefix always ends on a rune boundary. -/
def isTest (isLower : Char → Bool) (name pfx : List Char) : Bool :=
  if ¬ pfx.isPrefixOf name then false
  else if name.length = pfx.length then true
  else !isLower ((name.drop pfx.length).headD runeError)

/-- The literal runes of the version regexp `go version go1.([0-9]+)[^0-9].*`
up to the unescaped dot. -/
def goVersionLit : List Char := String.toList "go version go1"

/-- One anchored attempt of the version regexp at the start of `s`: the
literal, then any rune except newline (the unescaped dot), then the captured
maximal non-empty run of digits, which the `[^0-9]` class requires to be
followed by at least one further rune. Returns the captured digit run. -/
def matchAttempt (s : List Char) : Option (List Char) :=
  if goVersionLit.isPrefixOf s then
    match s.drop goVersionLit.length with
    | [] => none
    | c :: rest =>
      if c = '\n' then none
      else
        let ds := rest.takeWhile Char.isDigit
        if ds.isEmpty then none
        else if (rest.dropWhile Char.isDigit).isEmpty then none
        else some ds
  else none

/-- Leftmost-match search of the version regexp over the whole input
(`regexp.FindSubmatch` is unanchored): the capture of the leftmost position
where an attempt succeeds. -/
def regexFind : List Char → Option (List Char)
  | [] => none
  | c :: t =>
    match matchAttempt (c :: t) with
    | some ds => some ds
    | none => regexFind t

/-- `strconv.Atoi` on a run of decimal digits. -/
def digitsVal (ds : List Char) : Nat :=
  ds.foldl (fun a c => 10 * a + (c.toNat - Char.toNat '0')) 0

/-- `isVersion18` (`part_001`, lines 63-72): matches the version output
against `go version go1.([0-9]+)[^0-9].*`; on no match it logs a warning and
returns false, otherwise it compares the captured minor version against 8. -/
def isVersion18 (version : List Char) : Bool :=
  match regexFind version with
  | none => false
  | some ds => decide (8 ≤ digitsVal ds)

/-- Specification-side reading of a successful match at offset `p`: after `p`
runes the input continues with the literal `go version go1`, one rune that is
not a newline, a non-empty digit run, and then a rune that is not a digit. -/
def specMatchAt (s : List Char) (p : Nat) (v : Nat) : Prop :=
  ∃ c ds nd rest, s.drop p = goVersionLit ++ c :: (ds ++ nd :: rest) ∧
    c ≠ '\n' ∧ ds ≠ [] ∧ (∀ d ∈ ds, Char.isDigit d = true) ∧
    Char.isDigit nd = false ∧ v = digitsVal ds

end buildgo

namespace remote

/-- A minimal copy of `go list`'s package struct, as declared in
`tools/please_go_tool/remote/remote.go` (fields not used by the embedded
functions are omitted from the model). -/
structure jsonPackage where
  Dir : String
  Root : String
  ImportPath : String
  Standard : Bool
  GoFiles : List String
  Imports : List String
  Deps : List String

/-- Inserting a key into the model of a Go string-keyed set
(`map[string]struct` with empty struct values): adding an already present key
changes nothing. -/
def insertKey (m : List String) (k : String) : List String :=
  if k ∈ m then m else m ++ [k]

/-- `jsonPackages.UniqueDeps` (`remote.go`, lines 241-255): the unique set of
deps from a set of packages, including the packages themselves, returned in
`sort.Strings` order. -/
def UniqueDeps (jps : List jsonPackage) : List String :=
  let m := jps.foldl (fun m jp => insertKey (jp.Deps.foldl insertKey m) jp.ImportPath) []
  List.insertionSort (· ≤ ·) m

end remote

namespace cleaner

/-- Modelled from the spec: a `CacheEntry` as the cache cleaner (whose code is
not part of this excerpt) sees it: artifact size in bytes, last-access time,
and its age (elapsed time since creation) at the moment of the pass. -/
structure Entry where
  size : Nat
  lastAccess : Nat
  age : Nat
deriving DecidableEq

/-- Total size of a list of cache entries. -/
def totalSize (es : List Entry) : Nat := (es.map Entry.size).sum

/-- Modelled from the spec: the deletion scan of one cleaner pass over entries
already ordered by last-access time ascending, with `t` the running total
size: entries are deleted until the total falls to or below the low-water mark
`lw`, and entries younger than `minAge` are skipped. Returns the kept and the
deleted entries. -/
def cleanScan (lw minAge : Nat) : List Entry → Nat → List Entry × List Entry
  | [], _ => ([], [])
  | e :: rest, t =>
    if t ≤ lw then (e :: rest, [])
    else if e.age < minAge then
      let p := cleanScan lw minAge rest t
      (e :: p.1, p.2)
    else
      let p := cleanScan lw minAge rest (t - e.size)
      (p.1, e :: p.2)

/-- Modelled from the spec: one pass of the cache cleaner: compute the total
cache size; if it exceeds the high-water mark `hw`, list the entries ordered
by last-access time ascending (least recently used first) and run the
deletion scan; otherwise touch nothing. -/
def cleanerPass (hw lw minAge : Nat) (es : List Entry) : List Entry × List Entry :=
  if totalSize es ≤ hw then (es, [])
  else
    cleanScan lw minAge
      (List.insertionSort (fun a b => a.lastAccess ≤ b.lastAccess) es) (totalSize es)

end cleaner

namespace cache

/-- Artifact bytes. -/
abbrev Artifact := List Nat

/-- A fingerprint used as the cache key. -/
abbrev Fp := Nat

/-- Modelled from the spec: what a concrete cache backend can answer to a
`Get`: a hit, a miss, or a backend error (network failure, disk I/O failure,
malformed entry). -/
inductive GetResult
  | hit (a : Artifact)
  | miss
  | err (e : String)
deriving DecidableEq

/-- What the cache layer reports to the build: only a hit or a miss. -/
inductive CacheAnswer
  | hit (a : Artifact)
  | miss
deriving DecidableEq

/-- Modelled from the spec: a cache backend (local disk, RPC remote, or HTTP
remote) with the capability set Get/Put/Delete; `put` and `delete` return
`some e` when they fail with error `e`. -/
structure Backend where
  get : Fp → GetResult
  put : Fp → Artifact → Option String
  delete : Fp → Option String

/-- Modelled from the spec: best-effort `Get` against one backend: any
backend error is treated as a miss rather than propagated. -/
def getBestEffort (b : Backend) (fp : Fp) : CacheAnswer :=
  match b.get fp with
  | .hit a => .hit a
  | .miss => .miss
  | .err _ => .miss

/-- Modelled from the spec: `Get` on the composite chain: backends are
queried in priority order and the first hit wins; errors and misses fall
through to the next backend. -/
def chainGet : List Backend → Fp → CacheAnswer
  | [], _ => .miss
  | b :: bs, fp =>
    match getBestEffort b fp with
    | .hit a => .hit a
    | .miss => chainGet bs fp

/-- Result of one target's build as the scheduler records it. -/
inductive BuildOutcome
  | cacheHit (a : Artifact)
  | succeeded (a : Artifact)
  | failedBuild (e : String)
deriving DecidableEq

/-- Replace a backend's `put` and `delete` behaviour, keeping its `get`. -/
def withPut (b : Backend) (p : Fp → Artifact → Option String)
    (d : Fp → Option String) : Backend :=
  { get := b.get, put := p, delete := d }

/-- Modelled from the spec: building one target against the cache: query the
chain; on a hit mark `CacheHit`; on a miss run the executor; on executor
success store the artifact into every backend with the `Put` results dropped
(`errs` is discarded), and only an executor error yields a failed build. -/
def buildWithCache (bs : List Backend) (fp : Fp)
    (exec : Unit → Except String Artifact) : BuildOutcome :=
  match chainGet bs fp with
  | .hit a => .cacheHit a
  | .miss =>
    match exec () with
    | .ok a =>
      let _errs := bs.map (fun b => b.put fp a)
      .succeeded a
    | .error e => .failedBuild e

end cache

namespace engine

/-- Modelled from the spec: a build target's declared attributes (spec section 3):
label, ordered source-input references, ordered dependency labels, the opaque
build-action descriptor, declared output paths, the cacheable and test flags,
and the names of declared environment/config inputs. -/
structure Target where
  label : String
  sources : List String
  deps : List String
  action : String
  outs : List String
  cacheable : Bool
  isTestTarget : Bool
  envInputs : List String

/-- Modelled from the spec: everything a build could in principle observe
beyond its declared inputs: file contents addressed by source reference, the
full process environment, the wall clock, and the order the filesystem lists
files in. A correct fingerprinter may depend only on declared projections of
this. -/
structure World where
  fileContent : String → String
  env : String → String
  clock : Nat
  fsOrder : List String

/-- An executable stand-in for the content digest of a string. -/
def hashStr (s : String) : Nat :=
  s.toList.foldl (fun a c => a * 131 + c.toNat + 1) 7

/-- Combining a list of component digests into one digest. -/
def hashCombine (l : List Nat) : Nat :=
  l.foldl (fun a n => a * 1000003 + n + 1) 11

/-- Modelled from the spec (section 4.2): `Fingerprint(target, dependencyFingerprints)`:
the digest of the canonical serialization of the target's declared inputs
(source content digests, the build-action descriptor, the values of declared
environment inputs) concatenated, in dependency-label sorted order, with the
fingerprints of all direct dependencies. -/
def Fingerprint (w : World) (t : Target) (depFp : String → Nat) : Nat :=
  hashCombine
    ((t.sources.map fun s => hashStr (w.fileContent s)) ++
     [hashStr t.action] ++
     (t.envInputs.map fun k => hashStr (w.env k)) ++
     ((List.insertionSort (· ≤ ·) t.deps).map depFp))

end engine

namespace sched

/-- Modelled from the spec (section 3): the per-target, per-invocation build
state. `Pending` covers Unresolved/Pending, `Queued` means sitting in the
ready queue, and the terminal states are `Succeeded` (also covering CacheHit,
operationally a success) and `Failed`. -/
inductive St
  | Pending
  | Queued
  | Succeeded
  | Failed
deriving DecidableEq

/-- Modelled from the spec: the dependency graph one invocation walks: the
resolved targets (identified by natural numbers) and each target's direct
dependencies. -/
structure Graph where
  targets : List Nat
  deps : Nat → List Nat

/-- Scheduler state: per-target status, the ready queue, and how many times
each target's build action has executed. -/
structure SState where
  status : Nat → St
  queue : List Nat
  execs : Nat → Nat

/-- The targets that are ready at the start of the invocation: those with no
dependencies. -/
def readyAtStart (g : Graph) : List Nat :=
  g.targets.filter fun t => (g.deps t).isEmpty

/-- Modelled from the spec: the initial scheduler state: targets with
in-degree zero sit in the ready queue, every other target is pending, and no
build action has executed. -/
def initState (g : Graph) : SState :=
  { status := fun t => if t ∈ readyAtStart g then .Queued else .Pending
    queue := readyAtStart g
    execs := fun _ => 0 }

/-- The dependents of `t`: the targets that list `t` among their
dependencies. -/
def dependents (g : Graph) (t : Nat) : List Nat :=
  g.targets.filter fun u => t ∈ g.deps u

/-- Modelled from the spec: the dependents of `t` whose in-degree counter
reaches zero when `t` succeeds: pending targets all of whose dependencies
other than `t` have already succeeded. -/
def newlyReady (g : Graph) (s : SState) (t : Nat) : List Nat :=
  (dependents g t).filter fun u =>
    decide (s.status u = St.Pending ∧ ∀ d ∈ g.deps u, d = t ∨ s.status d = St.Succeeded)

/-- Modelled from the spec: a worker takes `t` off the ready queue, its build
action runs (or a cache hit materializes) and succeeds: `t` is marked
succeeded, the in-degree counters of its dependents drop, and the dependents
reaching zero enter the ready queue. -/
def stepSucceed (g : Graph) (s : SState) (t : Nat) : SState :=
  { status := fun x =>
      if x = t then .Succeeded
      else if x ∈ newlyReady g s t then .Queued
      else s.status x
    queue := s.queue.erase t ++ newlyReady g s t
    execs := fun x => if x = t then s.execs x + 1 else s.execs x }

/-- Modelled from the spec: a worker takes `t` off the ready queue and its
build action fails: `t` is marked failed and nothing is enqueued. -/
def stepFail (s : SState) (t : Nat) : SState :=
  { status := fun x => if x = t then .Failed else s.status x
    queue := s.queue.erase t
    execs := fun x => if x = t then s.execs x + 1 else s.execs x }

/-- Modelled from the spec: fail-fast propagation: a pending target one of
whose dependencies failed is marked failed without entering the ready
queue. -/
def stepPropagate (s : SState) (u : Nat) : SState :=
  { status := fun x => if x = u then .Failed else s.status x
    queue := s.queue
    execs := s.execs }

/-- Modelled from the spec: one scheduler transition under the default
fail-fast policy. Which queued target a worker completes next, and whether
its action succeeds, is the nondeterminism of bounded-parallel execution. -/
inductive Step (g : Graph) : SState → SState → Prop
  | succeed (s : SState) (t : Nat) : t ∈ s.queue → Step g s (stepSucceed g s t)
  | fail (s : SState) (t : Nat) : t ∈ s.queue → Step g s (stepFail s t)
  | propagate (s : SState) (u : Nat) : u ∈ g.targets → s.status u = .Pending →
      (∃ d ∈ g.deps u, s.status d = .Failed) → Step g s (stepPropagate s u)

/-- The states one invocation can reach. -/
def Reachable (g : Graph) (s : SState) : Prop :=
  Relation.ReflTransGen (Step g) (initState g) s

/-- `t` depends on `f`, directly or transitively. -/
def DependsOn (g : Graph) (t f : Nat) : Prop :=
  Relation.TransGen (fun a b => b ∈ g.deps a) t f

/-- The scheduler invariant maintained by every transition: the ready queue
is duplicate-free and holds exactly the `Queued` targets, each action has
executed at most once and only for terminal targets, and a target that is
queued, succeeded, or failed-after-executing has all dependencies
succeeded. -/
structure Inv (g : Graph) (s : SState) : Prop where
  qnodup : s.queue.Nodup
  qiff : ∀ t, s.status t = St.Queued ↔ t ∈ s.queue
  exle : ∀ t, s.execs t ≤ 1
  exst : ∀ t, 1 ≤ s.execs t → s.status t = St.Succeeded ∨ s.status t = St.Failed
  depsS : ∀ t, (s.status t = St.Queued ∨ s.status t = St.Succeeded ∨
      (s.status t = St.Failed ∧ 1 ≤ s.execs t)) →
    ∀ d ∈ g.deps t, s.status d = St.Succeeded
  qsub : ∀ t ∈ s.queue, t ∈ g.targets

/-- A concrete diamond graph: target 3 depends on 1 and 2, which both depend
on 0 — the shape in which two dependents complete concurrently. -/
def diamond : Graph :=
  { targets := [0, 1, 2, 3]
    deps := fun n => if n = 1 then [0] else if n = 2 then [0]
      else if n = 3 then [1, 2] else [] }

/-- A concrete chain graph: 2 depends on 1 depends on 0. -/
def chainG : Graph :=
  { targets := [0, 1, 2]
    deps := fun n => if n = 1 then [0] else if n = 2 then [1] else [] }

end sched

namespace graph

/-- Modelled from the spec: a build graph as loaded: each target's label with
its declared dependency labels. -/
abbrev BGraph := List (String × List String)

/-- The labels present in the graph. -/
def labels (g : BGraph) : List String := g.map Prod.fst

/-- The declared dependencies of a label (empty when the label is absent). -/
def depsOf (g : BGraph) (l : String) : List String :=
  ((g.find? fun p => decide (p.1 = l)).map Prod.snd).getD []

/-- Insert a label into a duplicate-free accumulator. -/
def dedupInsert (s : List String) (x : String) : List String :=
  if x ∈ s then s else x :: s

/-- Add every label of `xs` to the accumulator, keeping it duplicate-free. -/
def addAll (s : List String) (xs : List String) : List String :=
  xs.foldl dedupInsert s

/-- One expansion step of the transitive-dependency closure: add the direct
dependencies of every label already in the set. -/
def expandOnce (g : BGraph) (s : List String) : List String :=
  s.foldl (fun acc l => addAll acc (depsOf g l)) s

/-- Iterated expansion. -/
def iterExpand (g : BGraph) : Nat → List String → List String
  | 0, s => s
  | n + 1, s => iterExpand g n (expandOnce g s)

/-- A list long enough to contain every label expansion can ever produce:
the start labels, every label of the graph and every declared dependency. -/
def universeOf (g : BGraph) (starts : List String) : List String :=
  starts ++ g.flatMap fun p => p.1 :: p.2

/-- The transitive closure of `starts` under direct dependencies, computed by
expanding until the (provably reached) fixpoint. -/
def closureOf (g : BGraph) (starts : List String) : List String :=
  iterExpand g ((universeOf g starts).length + 1) (addAll [] starts)

/-- Modelled from the spec (section 7): the load-time errors. -/
inductive LoadErr
  | UnresolvedDependency (l : String)
  | CycleDetected (l : String)
deriving DecidableEq

/-- Modelled from the spec: the first referenced label (a requested root or a
declared dependency of some target) that is absent from the graph, if any. -/
def firstUnresolved (g : BGraph) (roots : List String) : Option String :=
  (roots ++ g.flatMap fun p => p.2).find? fun l => decide (l ∉ labels g)

/-- Modelled from the spec: cycle detection: a label that transitively
depends on itself, if any. -/
def cyclicLabel (g : BGraph) : Option String :=
  (labels g).find? fun l => decide (l ∈ closureOf g (depsOf g l))

/-- Modelled from the spec (section 4.1): `Resolve(labels)`: check that every
referenced label resolves, check acyclicity, and return the requested targets
plus their full transitive dependency closure. -/
def resolve (g : BGraph) (roots : List String) : Except LoadErr (List String) :=
  match firstUnresolved g roots with
  | some l => .error (.UnresolvedDependency l)
  | none =>
    match cyclicLabel g with
    | some l => .error (.CycleDetected l)
    | none => .ok (closureOf g roots)

/-- Modelled from the spec: one build invocation: resolution happens first and
a load-time error aborts the invocation, so the returned list of targets whose
build actions ran is empty in that case. -/
def buildInvocation (g : BGraph) (roots : List String) :
    Except LoadErr (List String) × List String :=
  match resolve g roots with
  | .error e => (.error e, [])
  | .ok ts => (.ok ts, ts)

/-- `x` is a requested target or a transitive dependency of one. -/
def ReachSpec (g : BGraph) (roots : List String) (x : String) : Prop :=
  ∃ r ∈ roots, Relation.ReflTransGen (fun a b => b ∈ depsOf g a) r x

/-- Every label referenced from the roots or from a dependency list is
present in the graph. -/
def AllResolvable (g : BGraph) (roots : List String) : Prop :=
  (∀ r ∈ roots, r ∈ labels g) ∧ ∀ p ∈ g, ∀ d ∈ p.2, d ∈ labels g

/-- A dependency cycle through `l`. -/
def CycleAt (g : BGraph) (l : String) : Prop :=
  Relation.TransGen (fun a b => b ∈ depsOf g a) l l

end graph

/-! ## Theorems -/

/-- C8: for every function name and prefix, `isTest` returns true if and only
if the name starts with the prefix and either equals it exactly or the first
rune following the prefix is not a lowercase letter. -/
theorem c8_isTest_characterization (isLower : Char → Bool) (name pfx : List Char) :
    buildgo.isTest isLower name pfx = true ↔
      pfx <+: name ∧
        (name = pfx ∨ ∃ c rest, name.drop pfx.length = c :: rest ∧ isLower c = false) := by
  unfold buildgo.isTest
  by_cases hp : pfx.isPrefixOf name
  · obtain ⟨t, ht⟩ := List.isPrefixOf_iff_prefix.mp hp
    subst ht
    rw [if_neg (by simp [hp])]
    have hdrop : (pfx ++ t).drop pfx.length = t := List.drop_left _ _
    rcases t with _ | ⟨c, rest⟩
    · simp
    · have hlen : (pfx ++ c :: rest).length ≠ pfx.length := by
        simp [List.length_append]
      rw [if_neg hlen, hdrop]
      constructor
      · intro h
        refine ⟨List.prefix_append _ _, Or.inr ⟨c, rest, rfl, ?_⟩⟩
        simpa using h
      · rintro ⟨-, h | ⟨c', rest', hd, hl⟩⟩
        · exact absurd (congrArg List.length h) (by simp)
        · cases hd
          simpa using hl
  · rw [if_pos (by simp [hp])]
    refine iff_of_false (by simp) ?_
    rintro ⟨hpre, -⟩
    exact hp (List.isPrefixOf_iff_prefix.mpr hpre)

open remote

theorem mem_insertKey (m : List String) (k x : String) :
    x ∈ insertKey m k ↔ x ∈ m ∨ x = k := by
  unfold insertKey
  split <;> simp_all

theorem nodup_insertKey (m : List String) (k : String) (h : m.Nodup) :
    (insertKey m k).Nodup := by
  unfold insertKey
  split
  · exact h
  · next hk => simp [List.nodup_append, h, hk]

theorem mem_foldl_insertKey (l : List String) (m : List String) (x : String) :
    x ∈ l.foldl insertKey m ↔ x ∈ m ∨ x ∈ l := by
  induction l generalizing m with
  | nil => simp
  | cons a t ih => simp [List.foldl_cons, ih, mem_insertKey]; tauto

theorem nodup_foldl_insertKey (l : List String) (m : List String) (h : m.Nodup) :
    (l.foldl insertKey m).Nodup := by
  induction l generalizing m with
  | nil => exact h
  | cons a t ih => exact ih _ (nodup_insertKey _ _ h)

theorem mem_accum (jps : List jsonPackage) (m : List String) (x : String) :
    x ∈ jps.foldl (fun m jp => insertKey (jp.Deps.foldl insertKey m) jp.ImportPath) m ↔
      x ∈ m ∨ ∃ jp ∈ jps, x ∈ jp.Deps ∨ x = jp.ImportPath := by
  induction jps generalizing m with
  | nil => simp
  | cons jp t ih =>
    simp only [List.foldl_cons, ih, mem_insertKey, mem_foldl_insertKey, List.mem_cons]
    constructor
    · rintro (((h | h) | h) | ⟨jq, hq, h⟩)
      · exact Or.inl h
      · exact Or.inr ⟨jp, Or.inl rfl, Or.inl h⟩
      · exact Or.inr ⟨jp, Or.inl rfl, Or.inr h⟩
      · exact Or.inr ⟨jq, Or.inr hq, h⟩
    · rintro (h | ⟨jq, (rfl | hq), h⟩)
      · exact Or.inl (Or.inl (Or.inl h))
      · rcases h with h | h
        · exact Or.inl (Or.inl (Or.inr h))
        · exact Or.inl (Or.inr h)
      · exact Or.inr ⟨jq, hq, h⟩

theorem nodup_accum (jps : List jsonPackage) (m : List String) (h : m.Nodup) :
    (jps.foldl (fun m jp => insertKey (jp.Deps.foldl insertKey m) jp.ImportPath) m).Nodup := by
  induction jps generalizing m with
  | nil => exact h
  | cons jp t ih => exact ih _ (nodup_insertKey _ _ (nodup_foldl_insertKey _ _ h))

/-- C10: `jsonPackages.UniqueDeps` returns a lexicographically sorted,
duplicate-free list whose elements are exactly the union of every package's
`Deps` entries with every package's own `ImportPath`. -/
theorem c10_UniqueDeps_spec (jps : List jsonPackage) :
    List.Sorted (· ≤ ·) (UniqueDeps jps) ∧ (UniqueDeps jps).Nodup ∧
      ∀ s, s ∈ UniqueDeps jps ↔ ∃ jp ∈ jps, s ∈ jp.Deps ∨ s = jp.ImportPath := by
  unfold UniqueDeps
  have hperm := List.perm_insertionSort (fun a b : String => a ≤ b)
    (jps.foldl (fun m jp => insertKey (jp.Deps.foldl insertKey m) jp.ImportPath) [])
  refine ⟨List.sorted_insertionSort _ _, ?_, ?_⟩
  · exact hperm.nodup_iff.mpr (nodup_accum _ _ List.nodup_nil)
  · intro s
    rw [hperm.mem_iff, mem_accum]
    simp

open buildgo

theorem takeWhile_of_append (p : Char → Bool) (ds : List Char) (nd : Char)
    (rest : List Char) (hds : ∀ d ∈ ds, p d = true) (hnd : p nd = false) :
    (ds ++ nd :: rest).takeWhile p = ds ∧ (ds ++ nd :: rest).dropWhile p = nd :: rest := by
  induction ds with
  | nil => simp [List.takeWhile, List.dropWhile, hnd]
  | cons d t ih =>
    have hd : p d = true := hds d (by simp)
    have ht := ih (fun x hx => hds x (by simp [hx]))
    simp [List.takeWhile, List.dropWhile, hd, ht.1, ht.2]

theorem matchAttempt_eq_some_iff (t : List Char) (ds : List Char) :
    matchAttempt t = some ds ↔
      ∃ c nd rest, t = goVersionLit ++ c :: (ds ++ nd :: rest) ∧ c ≠ '\n' ∧
        ds ≠ [] ∧ (∀ d ∈ ds, Char.isDigit d = true) ∧ Char.isDigit nd = false := by
  constructor
  · intro h
    unfold matchAttempt at h
    by_cases hp : goVersionLit.isPrefixOf t
    swap
    · simp [hp] at h
    rw [if_pos hp] at h
    obtain ⟨u, hu⟩ := List.isPrefixOf_iff_prefix.mp hp
    have hdrop : t.drop goVersionLit.length = u := by
      rw [← hu]; exact List.drop_left _ _
    rw [hdrop] at h
    rcases u with _ | ⟨c, rest⟩
    · exact absurd h (by simp)
    simp only at h
    by_cases hc : c = '\n'
    · simp [hc] at h
    rw [if_neg hc] at h
    by_cases he : (rest.takeWhile Char.isDigit).isEmpty
    · simp [he] at h
    rw [if_neg he] at h
    by_cases he2 : (rest.dropWhile Char.isDigit).isEmpty
    · simp [he2] at h
    rw [if_neg he2] at h
    have hds : ds = rest.takeWhile Char.isDigit := by
      cases h; rfl
    have hne : rest.dropWhile Char.isDigit ≠ [] := by
      simpa [List.isEmpty_iff] using he2
    obtain ⟨nd, rest', hnd⟩ : ∃ nd rest', rest.dropWhile Char.isDigit = nd :: rest' := by
      rcases hw : rest.dropWhile Char.isDigit with _ | ⟨a, b⟩
      · exact absurd hw hne
      · exact ⟨a, b, rfl⟩
    refine ⟨c, nd, rest', ?_, hc, ?_, ?_, ?_⟩
    · rw [← hu]
      congr 1
      congr 1
      rw [hds, ← hnd]
      exact (List.takeWhile_append_dropWhile Char.isDigit rest).symm
    · rw [hds]
      simpa [List.isEmpty_iff] using he
    · intro d hd
      rw [hds] at hd
      exact List.mem_takeWhile_imp hd
    · have := List.head_dropWhile_not Char.isDigit rest hne
      simp only [hnd, List.head_cons] at this
      exact this
  · rintro ⟨c, nd, rest, rfl, hc, hne, hds, hnd⟩
    unfold matchAttempt
    rw [if_pos (List.isPrefixOf_iff_prefix.mpr (List.prefix_append _ _))]
    rw [List.drop_left]
    simp only
    rw [if_neg hc]
    obtain ⟨htw, hdw⟩ := takeWhile_of_append Char.isDigit ds nd rest hds hnd
    rw [htw, hdw]
    rw [if_neg (by simpa [List.isEmpty_iff] using hne)]
    rw [if_neg (by simp [List.isEmpty_iff])]

theorem matchAttempt_nil : matchAttempt [] = none := by
  have : goVersionLit.isPrefixOf ([] : List Char) = false := by decide
  unfold matchAttempt
  rw [this]
  simp

theorem regexFind_eq_some_iff (s : List Char) (ds : List Char) :
    regexFind s = some ds ↔
      ∃ p, matchAttempt (s.drop p) = some ds ∧
        ∀ q, q < p → matchAttempt (s.drop q) = none := by
  induction s with
  | nil =>
    simp only [regexFind]
    constructor
    · intro h; exact absurd h (by simp)
    · rintro ⟨p, hm, -⟩
      rw [List.drop_nil] at hm
      rw [matchAttempt_nil] at hm
      exact absurd hm (by simp)
  | cons c t ih =>
    rcases hm : matchAttempt (c :: t) with _ | ds0
    · have : regexFind (c :: t) = regexFind t := by
        simp only [regexFind, hm]
      rw [this, ih]
      constructor
      · rintro ⟨p, hp, hmin⟩
        refine ⟨p + 1, by simpa using hp, ?_⟩
        intro q hq
        rcases q with _ | q'
        · simpa using hm
        · simpa using hmin q' (by omega)
      · rintro ⟨p, hp, hmin⟩
        rcases p with _ | p'
        · rw [List.drop_zero] at hp
          exact absurd hp (by simp [hm])
        · refine ⟨p', by simpa using hp, ?_⟩
          intro q hq
          have := hmin (q + 1) (by omega)
          simpa using this
    · have : regexFind (c :: t) = some ds0 := by
        simp only [regexFind, hm]
      rw [this]
      constructor
      · intro h
        refine ⟨0, ?_, by omega⟩
        rw [List.drop_zero, hm]
        exact h
      · rintro ⟨p, hp, hmin⟩
        rcases p with _ | p'
        · rw [List.drop_zero, hm] at hp
          exact hp
        · have := hmin 0 (by omega)
          rw [List.drop_zero, hm] at this
          exact absurd this (by simp)

theorem specMatchAt_iff (s : List Char) (p : Nat) (v : Nat) :
    specMatchAt s p v ↔ ∃ ds, matchAttempt (s.drop p) = some ds ∧ v = digitsVal ds := by
  constructor
  · rintro ⟨c, ds, nd, rest, heq, hc, hne, hds, hnd, hv⟩
    exact ⟨ds, (matchAttempt_eq_some_iff _ _).mpr ⟨c, nd, rest, heq, hc, hne, hds, hnd⟩, hv⟩
  · rintro ⟨ds, hm, hv⟩
    obtain ⟨c, nd, rest, heq, hc, hne, hds, hnd⟩ := (matchAttempt_eq_some_iff _ _).mp hm
    exact ⟨c, ds, nd, rest, heq, hc, hne, hds, hnd, hv⟩

/-- C9: `isVersion18` is total, returns false whenever the input has no
leftmost match of `go version go1.<any rune><digits><non-digit>...`, and on a
match returns true if and only if the captured minor version is at least 8. -/
theorem c9_isVersion18_spec (s : List Char) :
    isVersion18 s = true ↔
      ∃ p v, specMatchAt s p v ∧ (∀ q w, q < p → ¬ specMatchAt s q w) ∧ 8 ≤ v := by
  constructor
  · intro h
    unfold isVersion18 at h
    rcases hf : regexFind s with _ | ds
    · rw [hf] at h; exact absurd h (by simp)
    · rw [hf] at h
      have hv : 8 ≤ digitsVal ds := by simpa using h
      obtain ⟨p, hp, hmin⟩ := (regexFind_eq_some_iff s ds).mp hf
      refine ⟨p, digitsVal ds, (specMatchAt_iff _ _ _).mpr ⟨ds, hp, rfl⟩, ?_, hv⟩
      intro q w hq hspec
      obtain ⟨ds', hm', -⟩ := (specMatchAt_iff _ _ _).mp hspec
      rw [hmin q hq] at hm'
      exact absurd hm' (by simp)
  · rintro ⟨p, v, hspec, hmin, hv⟩
    obtain ⟨ds, hm, hveq⟩ := (specMatchAt_iff _ _ _).mp hspec
    have hnone : ∀ q, q < p → matchAttempt (s.drop q) = none := by
      intro q hq
      rcases hmq : matchAttempt (s.drop q) with _ | ds'
      · rfl
      · exact absurd ((specMatchAt_iff _ _ _).mpr ⟨ds', hmq, rfl⟩) (hmin q (digitsVal ds') hq)
    have hf : regexFind s = some ds := (regexFind_eq_some_iff s ds).mpr ⟨p, hm, hnone⟩
    unfold isVersion18
    rw [hf]
    subst hveq
    simpa using hv

open cleaner

theorem cleanScan_deleted_old (lw minAge : Nat) (l : List Entry) (t : Nat) :
    ∀ e ∈ (cleanScan lw minAge l t).2, minAge ≤ e.age := by
  induction l generalizing t with
  | nil => simp [cleanScan]
  | cons e rest ih =>
    intro x hx
    unfold cleanScan at hx
    split at hx
    · simp at hx
    · split at hx
      · exact ih t x hx
      · next hage =>
        rcases List.mem_cons.mp hx with rfl | hx'
        · omega
        · exact ih _ x hx'

theorem cleanScan_deleted_sublist (lw minAge : Nat) (l : List Entry) (t : Nat) :
    List.Sublist (cleanScan lw minAge l t).2 l := by
  induction l generalizing t with
  | nil => simp [cleanScan]
  | cons e rest ih =>
    unfold cleanScan
    split
    · simp
    · split
      · exact (ih t).cons e
      · exact (ih (t - e.size)).cons₂ e

theorem cleanScan_partition (lw minAge : Nat) (l : List Entry) (t : Nat) :
    totalSize (cleanScan lw minAge l t).1 + totalSize (cleanScan lw minAge l t).2 =
      totalSize l := by
  induction l generalizing t with
  | nil => simp [cleanScan, totalSize]
  | cons e rest ih =>
    unfold cleanScan
    split
    · simp [totalSize]
    · split
      · have := ih t
        simp only [totalSize, List.map_cons, List.sum_cons] at *
        omega
      · have := ih (t - e.size)
        simp only [totalSize, List.map_cons, List.sum_cons] at *
        omega

theorem cleanScan_low (lw minAge : Nat) (l : List Entry) (t : Nat)
    (h : totalSize l ≤ t) :
    (t - totalSize l) + totalSize (cleanScan lw minAge l t).1 ≤ lw ∨
      ∀ e ∈ (cleanScan lw minAge l t).1, e.age < minAge := by
  induction l generalizing t with
  | nil => exact Or.inr (by simp [cleanScan])
  | cons e rest ih =>
    have hsz : totalSize (e :: rest) = e.size + totalSize rest := by
      simp [totalSize]
    unfold cleanScan
    split
    · next hle =>
      left
      show (t - totalSize (e :: rest)) + totalSize (e :: rest) ≤ lw
      omega
    · split
      · next hage =>
        have hrest : totalSize rest ≤ t := by omega
        rcases ih t hrest with hlow | hyoung
        · left
          have := cleanScan_partition lw minAge rest t
          simp only [totalSize, List.map_cons, List.sum_cons] at *
          omega
        · right
          intro x hx
          rcases List.mem_cons.mp hx with rfl | hx'
          · exact hage
          · exact hyoung x hx'
      · have hrest : totalSize rest ≤ t - e.size := by omega
        rcases ih (t - e.size) hrest with hlow | hyoung
        · left
          simp only [totalSize, List.map_cons, List.sum_cons] at *
          omega
        · right
          simpa using hyoung

/-- C3 (amended): after a cleaner pass that started above the high-water
mark, every deleted entry is at least the minimum age, the deletions are in
ascending last-access order, and the remaining total size is at or below the
low-water mark unless every remaining entry is younger than the minimum age
(the skip rule can keep the total above the mark). -/
theorem c3_amended_cleanerPass (hw lw minAge : Nat) (es : List Entry)
    (h : hw < totalSize es) :
    (∀ e ∈ (cleanerPass hw lw minAge es).2, minAge ≤ e.age) ∧
    List.Sorted (fun a b => a.lastAccess ≤ b.lastAccess) (cleanerPass hw lw minAge es).2 ∧
    (totalSize (cleanerPass hw lw minAge es).1 ≤ lw ∨
      ∀ e ∈ (cleanerPass hw lw minAge es).1, e.age < minAge) := by
  unfold cleanerPass
  rw [if_neg (by omega)]
  have hperm : (List.insertionSort (fun a b => a.lastAccess ≤ b.lastAccess) es).Perm es :=
    List.perm_insertionSort _ es
  have htot : totalSize (List.insertionSort (fun a b => a.lastAccess ≤ b.lastAccess) es) =
      totalSize es := by
    unfold totalSize
    exact (hperm.map Entry.size).sum_eq
  refine ⟨cleanScan_deleted_old _ _ _ _, ?_, ?_⟩
  · have hsorted : List.Sorted (fun a b => a.lastAccess ≤ b.lastAccess)
        (List.insertionSort (fun a b => a.lastAccess ≤ b.lastAccess) es) := by
      haveI : IsTotal Entry (fun a b => a.lastAccess ≤ b.lastAccess) :=
        ⟨fun a b => Nat.le_total _ _⟩
      haveI : IsTrans Entry (fun a b => a.lastAccess ≤ b.lastAccess) :=
        ⟨fun a b c hab hbc => Nat.le_trans hab hbc⟩
      exact List.sorted_insertionSort _ _
    exact hsorted.sublist (cleanScan_deleted_sublist _ _ _ _)
  · rcases cleanScan_low lw minAge
      (List.insertionSort (fun a b => a.lastAccess ≤ b.lastAccess) es)
      (totalSize es) (le_of_eq htot) with hlow | hyoung
    · left
      omega
    · right
      exact hyoung

/-- C3 counterexample: a pass that starts above the high-water mark (total 12,
mark 10) can end above the low-water mark (11 > 8), because the bulk of the
cache is younger than the minimum age and is never evicted. -/
theorem c3_counterexample_pass_can_end_above_low :
    10 < totalSize [Entry.mk 1 0 10, Entry.mk 11 1 0] ∧
      ¬ totalSize (cleanerPass 10 8 5 [Entry.mk 1 0 10, Entry.mk 11 1 0]).1 ≤ 8 := by
  decide

/-- Witness for C3 (amended) at a concrete pass. -/
theorem c3_amended_witness :
    10 < totalSize [Entry.mk 1 0 10, Entry.mk 11 1 0] ∧
      ((∀ e ∈ (cleanerPass 10 8 5 [Entry.mk 1 0 10, Entry.mk 11 1 0]).2, 5 ≤ e.age) ∧
      List.Sorted (fun a b => a.lastAccess ≤ b.lastAccess)
        (cleanerPass 10 8 5 [Entry.mk 1 0 10, Entry.mk 11 1 0]).2 ∧
      (totalSize (cleanerPass 10 8 5 [Entry.mk 1 0 10, Entry.mk 11 1 0]).1 ≤ 8 ∨
        ∀ e ∈ (cleanerPass 10 8 5 [Entry.mk 1 0 10, Entry.mk 11 1 0]).1, e.age < 5)) :=
  ⟨by decide, c3_amended_cleanerPass 10 8 5 [Entry.mk 1 0 10, Entry.mk 11 1 0] (by decide)⟩

open cache

theorem getBestEffort_err (b : Backend) (fp : Fp) (e : String)
    (h : b.get fp = GetResult.err e) : getBestEffort b fp = CacheAnswer.miss := by
  unfold getBestEffort
  rw [h]

theorem chainGet_of_all_err (bs : List Backend) (fp : Fp)
    (h : ∀ b ∈ bs, ∃ e, b.get fp = GetResult.err e) :
    chainGet bs fp = CacheAnswer.miss := by
  induction bs with
  | nil => rfl
  | cons b t ih =>
    obtain ⟨e, he⟩ := h b (by simp)
    unfold chainGet
    rw [getBestEffort_err b fp e he]
    exact ih fun x hx => h x (by simp [hx])

theorem chainGet_map_withPut (bs : List Backend) (fp : Fp)
    (p : Fp → Artifact → Option String) (d : Fp → Option String) :
    chainGet (bs.map fun b => withPut b p d) fp = chainGet bs fp := by
  induction bs with
  | nil => rfl
  | cons b t ih =>
    simp only [List.map_cons, chainGet]
    have h1 : getBestEffort (withPut b p d) fp = getBestEffort b fp := rfl
    rw [h1]
    rcases getBestEffort b fp with a | _
    · rfl
    · exact ih

/-- C4: when every backend's `Get` fails with a backend error, the chain
reports a miss; a build can only fail through the executor, never through the
cache layer; and `Put`/`Delete` behaviour (including failures) cannot change a
build outcome. -/
theorem c4_cache_errors_nonfatal (bs : List Backend) (fp : Fp)
    (exec : Unit → Except String Artifact)
    (herr : ∀ b ∈ bs, ∃ e, b.get fp = GetResult.err e) :
    chainGet bs fp = CacheAnswer.miss ∧
    (∀ e, buildWithCache bs fp exec = BuildOutcome.failedBuild e →
      exec () = Except.error e) ∧
    (∀ a, exec () = Except.ok a →
      buildWithCache bs fp exec = BuildOutcome.succeeded a) ∧
    (∀ p d, buildWithCache (bs.map fun b => withPut b p d) fp exec =
      buildWithCache bs fp exec) := by
  have hmiss := chainGet_of_all_err bs fp herr
  refine ⟨hmiss, ?_, ?_, ?_⟩
  · intro e h
    unfold buildWithCache at h
    rw [hmiss] at h
    cases hx : exec () with
    | error a =>
      rw [hx] at h
      have h2 : a = e := by simpa using h
      rw [h2]
    | ok a =>
      rw [hx] at h
      simp at h
  · intro a hx
    unfold buildWithCache
    rw [hmiss, hx]
  · intro p d
    unfold buildWithCache
    rw [chainGet_map_withPut]

/-- Witness for C4: one backend whose every call fails with a network error;
the build still succeeds. -/
theorem c4_witness :
    (∀ b ∈ [Backend.mk (fun _ => GetResult.err "network down")
        (fun _ _ => some "refused") (fun _ => some "refused")],
      ∃ e, b.get 0 = GetResult.err e) ∧
    (chainGet [Backend.mk (fun _ => GetResult.err "network down")
        (fun _ _ => some "refused") (fun _ => some "refused")] 0 = CacheAnswer.miss ∧
    (∀ e, buildWithCache [Backend.mk (fun _ => GetResult.err "network down")
        (fun _ _ => some "refused") (fun _ => some "refused")] 0
        (fun _ => Except.ok [42]) = BuildOutcome.failedBuild e →
      (fun _ : Unit => (Except.ok [42] : Except String Artifact)) () = Except.error e) ∧
    (∀ a, (fun _ : Unit => (Except.ok [42] : Except String Artifact)) () = Except.ok a →
      buildWithCache [Backend.mk (fun _ => GetResult.err "network down")
        (fun _ _ => some "refused") (fun _ => some "refused")] 0
        (fun _ => Except.ok [42]) = BuildOutcome.succeeded a) ∧
    (∀ p d, buildWithCache (([Backend.mk (fun _ => GetResult.err "network down")
        (fun _ _ => some "refused") (fun _ => some "refused")]).map
          fun b => withPut b p d) 0 (fun _ => Except.ok [42]) =
      buildWithCache [Backend.mk (fun _ => GetResult.err "network down")
        (fun _ _ => some "refused") (fun _ => some "refused")] 0
        (fun _ => Except.ok [42]))) :=
  ⟨by
      intro b hb
      rw [List.mem_singleton] at hb
      subst hb
      exact ⟨"network down", rfl⟩,
   c4_cache_errors_nonfatal _ 0 (fun _ => Except.ok [42])
     (by
        intro b hb
        rw [List.mem_singleton] at hb
        subst hb
        exact ⟨"network down", rfl⟩)⟩

open engine

/-- C1: the fingerprint is a pure function of declared inputs: two worlds that
agree on the contents of the declared sources and the values of the declared
environment inputs, and two dependency-fingerprint assignments that agree on
the declared dependencies, yield the same digest, whatever the wall clock,
the filesystem ordering, or undeclared environment variables do. -/
theorem c1_fingerprint_deterministic (w₁ w₂ : World) (t : Target)
    (f₁ f₂ : String → Nat)
    (hsrc : ∀ s ∈ t.sources, w₁.fileContent s = w₂.fileContent s)
    (henv : ∀ k ∈ t.envInputs, w₁.env k = w₂.env k)
    (hdep : ∀ d ∈ t.deps, f₁ d = f₂ d) :
    Fingerprint w₁ t f₁ = Fingerprint w₂ t f₂ := by
  unfold Fingerprint
  have h1 : (t.sources.map fun s => hashStr (w₁.fileContent s)) =
      (t.sources.map fun s => hashStr (w₂.fileContent s)) :=
    List.map_congr_left fun s hs => by rw [hsrc s hs]
  have h2 : (t.envInputs.map fun k => hashStr (w₁.env k)) =
      (t.envInputs.map fun k => hashStr (w₂.env k)) :=
    List.map_congr_left fun k hk => by rw [henv k hk]
  have h3 : ((List.insertionSort (· ≤ ·) t.deps).map f₁) =
      ((List.insertionSort (· ≤ ·) t.deps).map f₂) :=
    List.map_congr_left fun d hd =>
      hdep d ((List.perm_insertionSort _ t.deps).mem_iff.mp hd)
  rw [h1, h2, h3]

/-- Witness for C1: two worlds differing in clock, filesystem order,
undeclared files and undeclared environment variables fingerprint alike. -/
theorem c1_witness :
    (∀ s ∈ (Target.mk "lib" ["a.go"] ["d1"] "compile" ["out"] true false ["PLATFORM"]).sources,
      (World.mk (fun _ => "content") (fun _ => "x") 0 []).fileContent s =
      (World.mk (fun s => if s = "a.go" then "content" else "other")
        (fun k => if k = "PLATFORM" then "x" else "y") 999 ["z.go"]).fileContent s) ∧
    (∀ k ∈ (Target.mk "lib" ["a.go"] ["d1"] "compile" ["out"] true false ["PLATFORM"]).envInputs,
      (World.mk (fun _ => "content") (fun _ => "x") 0 []).env k =
      (World.mk (fun s => if s = "a.go" then "content" else "other")
        (fun k => if k = "PLATFORM" then "x" else "y") 999 ["z.go"]).env k) ∧
    (∀ d ∈ (Target.mk "lib" ["a.go"] ["d1"] "compile" ["out"] true false ["PLATFORM"]).deps,
      (fun _ : String => 5) d = (fun _ : String => 5) d) ∧
    Fingerprint (World.mk (fun _ => "content") (fun _ => "x") 0 [])
        (Target.mk "lib" ["a.go"] ["d1"] "compile" ["out"] true false ["PLATFORM"])
        (fun _ => 5) =
      Fingerprint (World.mk (fun s => if s = "a.go" then "content" else "other")
        (fun k => if k = "PLATFORM" then "x" else "y") 999 ["z.go"])
        (Target.mk "lib" ["a.go"] ["d1"] "compile" ["out"] true false ["PLATFORM"])
        (fun _ => 5) :=
  ⟨by decide, by decide, by decide,
    c1_fingerprint_deterministic _ _ _ _ _ (by decide) (by decide) (by decide)⟩

/-- C6: the fingerprint is invariant under permutation of the declared
dependency list, because dependency fingerprints are combined in sorted
label order. -/
theorem c6_fingerprint_dep_order_invariant (w : World) (t : Target)
    (f : String → Nat) (ds : List String) (hperm : ds.Perm t.deps) :
    Fingerprint w { t with deps := ds } f = Fingerprint w t f := by
  unfold Fingerprint
  have hsort : List.insertionSort (· ≤ ·) ds = List.insertionSort (· ≤ ·) t.deps := by
    have hs1 : List.Sorted (fun a b : String => a ≤ b) (List.insertionSort (· ≤ ·) ds) :=
      List.sorted_insertionSort _ _
    have hs2 : List.Sorted (fun a b : String => a ≤ b)
        (List.insertionSort (· ≤ ·) t.deps) :=
      List.sorted_insertionSort _ _
    exact List.eq_of_perm_of_sorted
      ((List.perm_insertionSort _ ds).trans
        (hperm.trans (List.perm_insertionSort _ t.deps).symm)) hs1 hs2
  simp only
  rw [hsort]

/-- Witness for C6 at a concrete reordered dependency list. -/
theorem c6_witness :
    (["b", "a"] : List String).Perm
      (Target.mk "lib" ["a.go"] ["a", "b"] "compile" ["out"] true false []).deps ∧
    Fingerprint (World.mk (fun _ => "c") (fun _ => "e") 0 [])
        { Target.mk "lib" ["a.go"] ["a", "b"] "compile" ["out"] true false [] with
            deps := ["b", "a"] } (fun _ => 5) =
      Fingerprint (World.mk (fun _ => "c") (fun _ => "e") 0 [])
        (Target.mk "lib" ["a.go"] ["a", "b"] "compile" ["out"] true false [])
        (fun _ => 5) :=
  ⟨by decide,
    c6_fingerprint_dep_order_invariant _ _ _ _ (by decide)⟩

open sched

theorem mem_newlyReady (g : Graph) (s : SState) (t u : Nat) :
    u ∈ newlyReady g s t ↔
      (u ∈ g.targets ∧ t ∈ g.deps u) ∧ s.status u = St.Pending ∧
        ∀ d ∈ g.deps u, d = t ∨ s.status d = St.Succeeded := by
  simp only [newlyReady, dependents, List.mem_filter, decide_eq_true_eq, and_assoc]

theorem inv_init (g : Graph) (hwf : g.targets.Nodup) : Inv g (initState g) := by
  constructor
  · exact hwf.filter _
  · intro t
    simp only [initState]
    split
    · next h => simpa using h
    · next h => simp [readyAtStart] at h ⊢; intro hmem; simp_all
  · intro t; exact Nat.zero_le 1
  · intro t h; exact absurd h (by simp [initState])
  · intro t htr d hd
    rcases htr with h | h | ⟨h, hex⟩
    · simp only [initState] at h
      split at h
      · next hm =>
        simp only [readyAtStart, List.mem_filter] at hm
        rw [List.isEmpty_iff] at hm
        simp [hm.2] at hd
      · simp at h
    · simp only [initState] at h; split at h <;> simp at h
    · simp only [initState] at h; split at h <;> simp at h
  · intro t ht
    simp only [initState, readyAtStart] at ht
    exact (List.mem_filter.mp ht).1

theorem inv_stepSucceed (g : Graph) (s : SState) (t : Nat) (hwf : g.targets.Nodup)
    (inv : Inv g s) (ht : t ∈ s.queue) : Inv g (stepSucceed g s t) := by
  have hstq : s.status t = St.Queued := (inv.qiff t).mpr ht
  have hnrP : ∀ u ∈ newlyReady g s t, s.status u = St.Pending :=
    fun u hu => ((mem_newlyReady g s t u).mp hu).2.1
  have hnrT : ∀ u ∈ newlyReady g s t, u ∈ g.targets :=
    fun u hu => ((mem_newlyReady g s t u).mp hu).1.1
  have hnrD : ∀ u ∈ newlyReady g s t, ∀ d ∈ g.deps u,
      d = t ∨ s.status d = St.Succeeded :=
    fun u hu => ((mem_newlyReady g s t u).mp hu).2.2
  have hnr_nodup : (newlyReady g s t).Nodup := (hwf.filter _).filter _
  have hnr_notq : ∀ u ∈ newlyReady g s t, u ∉ s.queue := by
    intro u hu hq
    have h2 := (inv.qiff u).mpr hq
    rw [hnrP u hu] at h2
    exact absurd h2 (by simp)
  have hnr_net : t ∉ newlyReady g s t := by
    intro hmem
    have := hnrP t hmem
    rw [hstq] at this
    exact absurd this (by simp)
  have hexT : s.execs t = 0 := by
    by_contra h
    rcases inv.exst t (Nat.one_le_iff_ne_zero.mpr h) with hs | hs <;>
      rw [hstq] at hs <;> exact absurd hs (by simp)
  have hpres : ∀ d, s.status d = St.Succeeded →
      (stepSucceed g s t).status d = St.Succeeded := by
    intro d hd
    show (if d = t then St.Succeeded
      else if d ∈ newlyReady g s t then St.Queued else s.status d) = St.Succeeded
    split
    · rfl
    · split
      · next hmem =>
        rw [hnrP d hmem] at hd
        exact absurd hd (by simp)
      · exact hd
  constructor
  · -- qnodup
    show (s.queue.erase t ++ newlyReady g s t).Nodup
    refine List.Nodup.append (inv.qnodup.erase t) hnr_nodup ?_
    intro a ha hb
    exact hnr_notq a hb (List.mem_of_mem_erase ha)
  · -- qiff
    intro x
    show (if x = t then St.Succeeded
        else if x ∈ newlyReady g s t then St.Queued else s.status x) = St.Queued ↔
      x ∈ s.queue.erase t ++ newlyReady g s t
    by_cases hxt : x = t
    · subst hxt
      rw [if_pos rfl]
      constructor
      · intro h; exact absurd h (by simp)
      · intro h
        rcases List.mem_append.mp h with h | h
        · exact (((List.Nodup.mem_erase_iff inv.qnodup).mp h).1 rfl).elim
        · exact (hnr_net h).elim
    · rw [if_neg hxt]
      by_cases hxn : x ∈ newlyReady g s t
      · rw [if_pos hxn]
        exact ⟨fun _ => List.mem_append.mpr (Or.inr hxn), fun _ => rfl⟩
      · rw [if_neg hxn]
        rw [inv.qiff x]
        constructor
        · intro h
          exact List.mem_append.mpr
            (Or.inl ((List.Nodup.mem_erase_iff inv.qnodup).mpr ⟨hxt, h⟩))
        · intro h
          rcases List.mem_append.mp h with h | h
          · exact List.mem_of_mem_erase h
          · exact absurd h hxn
  · -- exle
    intro x
    show (if x = t then s.execs x + 1 else s.execs x) ≤ 1
    split
    · next hx => subst hx; omega
    · exact inv.exle x
  · -- exst
    intro x hx
    show (if x = t then St.Succeeded
        else if x ∈ newlyReady g s t then St.Queued else s.status x) = St.Succeeded ∨
      (if x = t then St.Succeeded
        else if x ∈ newlyReady g s t then St.Queued else s.status x) = St.Failed
    by_cases hxt : x = t
    · rw [if_pos hxt]; exact Or.inl rfl
    · rw [if_neg hxt]
      have hex : 1 ≤ s.execs x := by
        simpa [stepSucceed, hxt] using hx
      rcases inv.exst x hex with hs | hs
      · rw [if_neg (by intro hmem; rw [hnrP x hmem] at hs; exact absurd hs (by simp))]
        exact Or.inl hs
      · rw [if_neg (by intro hmem; rw [hnrP x hmem] at hs; exact absurd hs (by simp))]
        exact Or.inr hs
  · -- depsS
    intro x htr d hd
    by_cases hxt : x = t
    · subst hxt
      have := inv.depsS x (Or.inl hstq) d hd
      exact hpres d this
    · by_cases hxn : x ∈ newlyReady g s t
      · rcases hnrD x hxn d hd with rfl | hs
        · show (if d = d then St.Succeeded
            else if d ∈ newlyReady g s d then St.Queued else s.status d) = St.Succeeded
          rw [if_pos rfl]
        · exact hpres d hs
      · have hst : (stepSucceed g s t).status x = s.status x := by
          show (if x = t then St.Succeeded
            else if x ∈ newlyReady g s t then St.Queued else s.status x) = s.status x
          rw [if_neg hxt, if_neg hxn]
        have hsx : (stepSucceed g s t).execs x = s.execs x := if_neg hxt
        rw [hst, hsx] at htr
        exact hpres d (inv.depsS x htr d hd)
  · -- qsub
    intro x hxq
    rcases List.mem_append.mp hxq with h | h
    · exact inv.qsub x (List.mem_of_mem_erase h)
    · exact hnrT x h

theorem inv_stepFail (g : Graph) (s : SState) (t : Nat)
    (inv : Inv g s) (ht : t ∈ s.queue) : Inv g (stepFail s t) := by
  have hstq : s.status t = St.Queued := (inv.qiff t).mpr ht
  have hexT : s.execs t = 0 := by
    by_contra h
    rcases inv.exst t (Nat.one_le_iff_ne_zero.mpr h) with hs | hs <;>
      rw [hstq] at hs <;> exact absurd hs (by simp)
  have hpres : ∀ d, s.status d = St.Succeeded →
      (stepFail s t).status d = St.Succeeded := by
    intro d hd
    show (if d = t then St.Failed else s.status d) = St.Succeeded
    split
    · next hdt => subst hdt; rw [hstq] at hd; exact absurd hd (by simp)
    · exact hd
  constructor
  · exact inv.qnodup.erase t
  · intro x
    show (if x = t then St.Failed else s.status x) = St.Queued ↔ x ∈ s.queue.erase t
    by_cases hxt : x = t
    · subst hxt
      rw [if_pos rfl]
      constructor
      · intro h; exact absurd h (by simp)
      · intro h; exact (((List.Nodup.mem_erase_iff inv.qnodup).mp h).1 rfl).elim
    · rw [if_neg hxt, inv.qiff x]
      rw [List.Nodup.mem_erase_iff inv.qnodup]
      constructor
      · intro h; exact ⟨hxt, h⟩
      · intro h; exact h.2
  · intro x
    show (if x = t then s.execs x + 1 else s.execs x) ≤ 1
    split
    · next hx => subst hx; omega
    · exact inv.exle x
  · intro x hx
    show (if x = t then St.Failed else s.status x) = St.Succeeded ∨
      (if x = t then St.Failed else s.status x) = St.Failed
    by_cases hxt : x = t
    · rw [if_pos hxt]; exact Or.inr rfl
    · rw [if_neg hxt]
      have hex : 1 ≤ s.execs x := by simpa [stepFail, hxt] using hx
      exact inv.exst x hex
  · intro x htr d hd
    by_cases hxt : x = t
    · subst hxt
      exact hpres d (inv.depsS x (Or.inl hstq) d hd)
    · have hst : (stepFail s t).status x = s.status x := if_neg hxt
      have hsx : (stepFail s t).execs x = s.execs x := if_neg hxt
      rw [hst, hsx] at htr
      exact hpres d (inv.depsS x htr d hd)
  · intro x hxq
    exact inv.qsub x (List.mem_of_mem_erase hxq)

theorem inv_stepPropagate (g : Graph) (s : SState) (u : Nat)
    (inv : Inv g s) (hp : s.status u = St.Pending) : Inv g (stepPropagate s u) := by
  have hnq : u ∉ s.queue := by
    intro hq
    have h2 := (inv.qiff u).mpr hq
    rw [hp] at h2
    exact absurd h2 (by simp)
  have hex0 : s.execs u = 0 := by
    by_contra h
    rcases inv.exst u (Nat.one_le_iff_ne_zero.mpr h) with hs | hs <;>
      rw [hp] at hs <;> exact absurd hs (by simp)
  have hpres : ∀ d, s.status d = St.Succeeded →
      (stepPropagate s u).status d = St.Succeeded := by
    intro d hd
    show (if d = u then St.Failed else s.status d) = St.Succeeded
    split
    · next hdu => subst hdu; rw [hp] at hd; exact absurd hd (by simp)
    · exact hd
  constructor
  · exact inv.qnodup
  · intro x
    show (if x = u then St.Failed else s.status x) = St.Queued ↔ x ∈ s.queue
    by_cases hxu : x = u
    · subst hxu
      rw [if_pos rfl]
      constructor
      · intro h; exact absurd h (by simp)
      · intro h; exact absurd h hnq
    · rw [if_neg hxu]; exact inv.qiff x
  · exact inv.exle
  · intro x hx
    show (if x = u then St.Failed else s.status x) = St.Succeeded ∨
      (if x = u then St.Failed else s.status x) = St.Failed
    by_cases hxu : x = u
    · rw [if_pos hxu]; exact Or.inr rfl
    · rw [if_neg hxu]; exact inv.exst x hx
  · intro x htr d hd
    by_cases hxu : x = u
    · have hst : (stepPropagate s u).status x = St.Failed := if_pos hxu
      rw [hst] at htr
      rcases htr with h | h | ⟨-, hex⟩
      · exact absurd h (by simp)
      · exact absurd h (by simp)
      · have hzero : s.execs x = 0 := by rw [hxu]; exact hex0
        have hsame : (stepPropagate s u).execs x = s.execs x := rfl
        rw [hsame, hzero] at hex
        omega
    · have hst : (stepPropagate s u).status x = s.status x := if_neg hxu
      have hsx : (stepPropagate s u).execs x = s.execs x := rfl
      rw [hst, hsx] at htr
      exact hpres d (inv.depsS x htr d hd)
  · exact inv.qsub

theorem inv_step (g : Graph) (s s2 : SState) (hwf : g.targets.Nodup)
    (inv : Inv g s) (h : Step g s s2) : Inv g s2 := by
  cases h with
  | succeed t ht => exact inv_stepSucceed g s t hwf inv ht
  | fail t ht => exact inv_stepFail g s t inv ht
  | propagate u hu hp hd => exact inv_stepPropagate g s u inv hp

theorem inv_reachable (g : Graph) (s : SState) (hwf : g.targets.Nodup)
    (hr : Reachable g s) : Inv g s := by
  induction hr with
  | refl => exact inv_init g hwf
  | tail h hstep ih => exact inv_step g _ _ hwf ih hstep

/-- C2: in every state the scheduler can reach, each target's build action
has executed at most once and the target occurs at most once in the ready
queue -- and never both: once executed it never re-enters the queue. -/
theorem c2_action_at_most_once (g : Graph) (s : SState) (hwf : g.targets.Nodup)
    (hr : Reachable g s) (t : Nat) :
    s.execs t + s.queue.count t ≤ 1 := by
  have inv := inv_reachable g s hwf hr
  by_cases hex : 1 ≤ s.execs t
  · have hq : t ∉ s.queue := by
      intro hq
      have h2 := (inv.qiff t).mpr hq
      rcases inv.exst t hex with hs | hs <;> rw [h2] at hs <;> exact absurd hs (by simp)
    have hc0 : s.queue.count t = 0 := List.count_eq_zero.mpr hq
    have hle := inv.exle t
    omega
  · have hc : s.queue.count t ≤ 1 := List.nodup_iff_count_le_one.mp inv.qnodup t
    omega

theorem blockedOfDepNotSucc (g : Graph) (s : SState) (inv : Inv g s) (x : Nat)
    (h : ∃ d ∈ g.deps x, s.status d ≠ St.Succeeded) :
    s.execs x = 0 ∧ x ∉ s.queue ∧ s.status x ≠ St.Succeeded ∧
      s.status x ≠ St.Queued := by
  obtain ⟨d, hd, hds⟩ := h
  have hnotr : ¬(s.status x = St.Queued ∨ s.status x = St.Succeeded ∨
      (s.status x = St.Failed ∧ 1 ≤ s.execs x)) := by
    intro htr
    exact hds (inv.depsS x htr d hd)
  have hq : s.status x ≠ St.Queued := fun h2 => hnotr (Or.inl h2)
  have hsu : s.status x ≠ St.Succeeded := fun h2 => hnotr (Or.inr (Or.inl h2))
  have hex : s.execs x = 0 := by
    by_contra h0
    have h1 : 1 ≤ s.execs x := Nat.one_le_iff_ne_zero.mpr h0
    rcases inv.exst x h1 with hs | hs
    · exact hsu hs
    · exact hnotr (Or.inr (Or.inr ⟨hs, h1⟩))
  exact ⟨hex, fun hq2 => hq ((inv.qiff x).mpr hq2), hsu, hq⟩

theorem blockedOfFailedDep (g : Graph) (s : SState) (inv : Inv g s) (t f : Nat)
    (hdep : DependsOn g t f) (hf : s.status f = St.Failed) :
    s.execs t = 0 ∧ t ∉ s.queue ∧ s.status t ≠ St.Succeeded ∧
      s.status t ≠ St.Queued := by
  unfold DependsOn at hdep
  induction hdep using Relation.TransGen.head_induction_on with
  | base h =>
    exact blockedOfDepNotSucc g s inv _ ⟨f, h, by rw [hf]; simp⟩
  | ih h h2 ih =>
    exact blockedOfDepNotSucc g s inv _ ⟨_, h, ih.2.2.1⟩

theorem failedInMaximal (g : Graph) (s : SState) (inv : Inv g s)
    (hcl : ∀ u ∈ g.targets, ∀ d ∈ g.deps u, d ∈ g.targets)
    (hmax : ∀ s2, ¬ Step g s s2) (t f : Nat)
    (hdep : DependsOn g t f) (hf : s.status f = St.Failed) (ht : t ∈ g.targets) :
    s.status t = St.Failed := by
  have noPending : ∀ u ∈ g.targets, s.status u = St.Pending →
      ∀ d ∈ g.deps u, s.status d ≠ St.Failed := by
    intro u hu hp d hd hdf
    exact hmax _ (Step.propagate s u hu hp ⟨d, hd, hdf⟩)
  unfold DependsOn at hdep
  induction hdep using Relation.TransGen.head_induction_on with
  | base h =>
    next a =>
    have hblock := blockedOfDepNotSucc g s inv a ⟨f, h, by rw [hf]; simp⟩
    rcases hsa : s.status a with _ | _ | _ | _
    · exact absurd hf (noPending a ht hsa f h)
    · exact absurd hsa hblock.2.2.2
    · exact absurd hsa hblock.2.2.1
    · rfl
  | ih h h2 ih =>
    next a c =>
    have hc : c ∈ g.targets := hcl a ht c h
    have hcf : s.status c = St.Failed := ih hc
    have hblock := blockedOfDepNotSucc g s inv a ⟨c, h, by rw [hcf]; simp⟩
    rcases hsa : s.status a with _ | _ | _ | _
    · exact absurd hcf (noPending a ht hsa c h)
    · exact absurd hsa hblock.2.2.2
    · exact absurd hsa hblock.2.2.1
    · rfl

/-- C5: under the default fail-fast policy, a target with a failed direct or
transitive dependency has never executed, is not in the ready queue, is not
succeeded, and in a final state (no transition applicable) is marked
`Failed`. -/
theorem c5_fail_fast (g : Graph) (s : SState) (hwf : g.targets.Nodup)
    (hcl : ∀ u ∈ g.targets, ∀ d ∈ g.deps u, d ∈ g.targets)
    (hr : Reachable g s) (t f : Nat) (ht : t ∈ g.targets)
    (hdep : DependsOn g t f) (hf : s.status f = St.Failed) :
    s.execs t = 0 ∧ t ∉ s.queue ∧ s.status t ≠ St.Succeeded ∧
      ((∀ s2, ¬ Step g s s2) → s.status t = St.Failed) := by
  have inv := inv_reachable g s hwf hr
  have hb := blockedOfFailedDep g s inv t f hdep hf
  exact ⟨hb.1, hb.2.1, hb.2.2.1,
    fun hmax => failedInMaximal g s inv hcl hmax t f hdep hf ht⟩

/-- Witness for C2 on the diamond graph after all four targets succeed. -/
theorem c2_witness :
    diamond.targets.Nodup ∧
      (stepSucceed diamond
        (stepSucceed diamond
          (stepSucceed diamond
            (stepSucceed diamond (initState diamond) 0) 1) 2) 3).execs 3 +
      (stepSucceed diamond
        (stepSucceed diamond
          (stepSucceed diamond
            (stepSucceed diamond (initState diamond) 0) 1) 2) 3).queue.count 3 ≤ 1 :=
  ⟨by decide,
    c2_action_at_most_once diamond _ (by decide)
      (Relation.ReflTransGen.tail
        (Relation.ReflTransGen.tail
          (Relation.ReflTransGen.tail
            (Relation.ReflTransGen.tail Relation.ReflTransGen.refl
              (Step.succeed (initState diamond) 0 (by decide)))
            (Step.succeed _ 1 (by decide)))
          (Step.succeed _ 2 (by decide)))
        (Step.succeed _ 3 (by decide)))
      3⟩

/-- Witness for C5 on the chain graph after target 0 fails and the failure
propagates. -/
theorem c5_witness :
    chainG.targets.Nodup ∧
      (stepPropagate (stepPropagate (stepFail (initState chainG) 0) 1) 2).execs 2 = 0 ∧
      2 ∉ (stepPropagate (stepPropagate (stepFail (initState chainG) 0) 1) 2).queue ∧
      (stepPropagate (stepPropagate (stepFail (initState chainG) 0) 1) 2).status 2 ≠
        St.Succeeded ∧
      ((∀ s2, ¬ Step chainG
          (stepPropagate (stepPropagate (stepFail (initState chainG) 0) 1) 2) s2) →
        (stepPropagate (stepPropagate (stepFail (initState chainG) 0) 1) 2).status 2 =
          St.Failed) :=
  ⟨by decide,
    c5_fail_fast chainG _ (by decide)
      (by
        intro u hu d hd
        fin_cases hu <;> simp_all [chainG]
        )
      (Relation.ReflTransGen.tail
        (Relation.ReflTransGen.tail
          (Relation.ReflTransGen.tail Relation.ReflTransGen.refl
            (Step.fail (initState chainG) 0 (by decide)))
          (Step.propagate _ 1 (by decide) (by decide) ⟨0, by decide, by decide⟩))
        (Step.propagate _ 2 (by decide) (by decide) ⟨1, by decide, by decide⟩))
      2 0 (by decide)
      (Relation.TransGen.head (show (1 : Nat) ∈ chainG.deps 2 by decide)
        (Relation.TransGen.single (show (0 : Nat) ∈ chainG.deps 1 by decide)))
      (by decide)⟩

open graph

theorem mem_dedupInsert (s : List String) (y x : String) :
    x ∈ dedupInsert s y ↔ x ∈ s ∨ x = y := by
  unfold dedupInsert
  split
  · next hy => constructor
               · exact fun h => Or.inl h
               · rintro (h | rfl)
                 · exact h
                 · exact hy
  · simp [or_comm]

theorem nodup_dedupInsert (s : List String) (y : String) (h : s.Nodup) :
    (dedupInsert s y).Nodup := by
  unfold dedupInsert
  split
  · exact h
  · next hy => exact List.Nodup.cons hy h

theorem mem_addAll (s xs : List String) (x : String) :
    x ∈ addAll s xs ↔ x ∈ s ∨ x ∈ xs := by
  induction xs generalizing s with
  | nil => simp [addAll]
  | cons a t ih =>
    show x ∈ addAll (dedupInsert s a) t ↔ _
    rw [ih, mem_dedupInsert]
    simp only [List.mem_cons]
    tauto

theorem nodup_addAll (s xs : List String) (h : s.Nodup) : (addAll s xs).Nodup := by
  induction xs generalizing s with
  | nil => exact h
  | cons a t ih => exact ih _ (nodup_dedupInsert s a h)

theorem addAll_eq_of_sub (s xs : List String) (h : ∀ x ∈ xs, x ∈ s) :
    addAll s xs = s := by
  induction xs with
  | nil => rfl
  | cons a t ih =>
    show addAll (dedupInsert s a) t = s
    have ha : dedupInsert s a = s := if_pos (h a (by simp))
    rw [ha]
    exact ih fun x hx => h x (by simp [hx])

theorem mem_foldl_addAll (g : BGraph) (ls : List String) (acc : List String) (x : String) :
    x ∈ ls.foldl (fun acc l => addAll acc (depsOf g l)) acc ↔
      x ∈ acc ∨ ∃ l ∈ ls, x ∈ depsOf g l := by
  induction ls generalizing acc with
  | nil => simp
  | cons a t ih =>
    rw [List.foldl_cons, ih, mem_addAll]
    simp only [List.mem_cons]
    constructor
    · rintro ((h | h) | ⟨l, hl, h⟩)
      · exact Or.inl h
      · exact Or.inr ⟨a, Or.inl rfl, h⟩
      · exact Or.inr ⟨l, Or.inr hl, h⟩
    · rintro (h | ⟨l, rfl | hl, h⟩)
      · exact Or.inl (Or.inl h)
      · exact Or.inl (Or.inr h)
      · exact Or.inr ⟨l, hl, h⟩

theorem nodup_foldl_addAll (g : BGraph) (ls : List String) (acc : List String)
    (h : acc.Nodup) : (ls.foldl (fun acc l => addAll acc (depsOf g l)) acc).Nodup := by
  induction ls generalizing acc with
  | nil => exact h
  | cons a t ih => exact ih _ (nodup_addAll _ _ h)

theorem mem_expandOnce (g : BGraph) (s : List String) (x : String) :
    x ∈ expandOnce g s ↔ x ∈ s ∨ ∃ l ∈ s, x ∈ depsOf g l :=
  mem_foldl_addAll g s s x

theorem nodup_expandOnce (g : BGraph) (s : List String) (h : s.Nodup) :
    (expandOnce g s).Nodup :=
  nodup_foldl_addAll g s s h

theorem expandOnce_eq_of_closed (g : BGraph) (s : List String)
    (h : ∀ l ∈ s, ∀ d ∈ depsOf g l, d ∈ s) : expandOnce g s = s := by
  unfold expandOnce
  have haux : ∀ ls : List String, (∀ l ∈ ls, ∀ d ∈ depsOf g l, d ∈ s) →
      ls.foldl (fun acc l => addAll acc (depsOf g l)) s = s := by
    intro ls
    induction ls with
    | nil => intro _; rfl
    | cons a t ih =>
      intro hls
      rw [List.foldl_cons, addAll_eq_of_sub s (depsOf g a) (hls a (by simp))]
      exact ih fun l hl => hls l (by simp [hl])
  exact haux s h

theorem sub_expandOnce (g : BGraph) (s : List String) : s ⊆ expandOnce g s :=
  fun x hx => (mem_expandOnce g s x).mpr (Or.inl hx)

theorem expandOnce_growth (g : BGraph) (s : List String) (hn : s.Nodup)
    (hne : expandOnce g s ≠ s) : s.length < (expandOnce g s).length := by
  have hnew : ∃ d ∈ expandOnce g s, d ∉ s := by
    by_contra hall
    push_neg at hall
    have hclosed : ∀ l ∈ s, ∀ d ∈ depsOf g l, d ∈ s := by
      intro l hl d hd
      exact hall d ((mem_expandOnce g s d).mpr (Or.inr ⟨l, hl, hd⟩))
    exact hne (expandOnce_eq_of_closed g s hclosed)
  obtain ⟨d, hd, hds⟩ := hnew
  have hsub : (d :: s) ⊆ expandOnce g s := by
    intro x hx
    rcases List.mem_cons.mp hx with rfl | hx
    · exact hd
    · exact sub_expandOnce g s hx
  have hnd : (d :: s).Nodup := List.Nodup.cons hds hn
  have := (hnd.subperm hsub).length_le
  simp only [List.length_cons] at this
  omega

theorem iterExpand_of_fix (g : BGraph) (n : Nat) (s : List String)
    (h : expandOnce g s = s) : iterExpand g n s = s := by
  induction n with
  | zero => rfl
  | succ n ih =>
    show iterExpand g n (expandOnce g s) = s
    rw [h]
    exact ih

theorem sub_iterExpand (g : BGraph) (n : Nat) (s : List String) :
    s ⊆ iterExpand g n s := by
  induction n generalizing s with
  | zero => exact fun x hx => hx
  | succ n ih =>
    intro x hx
    exact ih (expandOnce g s) (sub_expandOnce g s hx)

theorem nodup_iterExpand (g : BGraph) (n : Nat) (s : List String) (h : s.Nodup) :
    (iterExpand g n s).Nodup := by
  induction n generalizing s with
  | zero => exact h
  | succ n ih => exact ih _ (nodup_expandOnce g s h)

theorem depsOf_sub_universe (g : BGraph) (starts : List String) (l : String) :
    ∀ d ∈ depsOf g l, d ∈ universeOf g starts := by
  intro d hd
  unfold depsOf at hd
  rcases hf : g.find? fun p => decide (p.1 = l) with _ | p
  · rw [hf] at hd
    exact absurd hd (List.not_mem_nil d)
  · rw [hf] at hd
    have hd2 : d ∈ p.2 := hd
    have hp : p ∈ g := List.mem_of_find?_eq_some hf
    unfold universeOf
    refine List.mem_append.mpr (Or.inr ?_)
    rw [List.mem_flatMap]
    exact ⟨p, hp, by simp [hd2]⟩

theorem expandOnce_sub_universe (g : BGraph) (starts : List String)
    (s : List String) (h : s ⊆ universeOf g starts) :
    expandOnce g s ⊆ universeOf g starts := by
  intro x hx
  rcases (mem_expandOnce g s x).mp hx with hx | ⟨l, hl, hx⟩
  · exact h hx
  · exact depsOf_sub_universe g starts l x hx

theorem iter_saturates (g : BGraph) (starts : List String) :
    ∀ (n : Nat) (s : List String), s.Nodup → s ⊆ universeOf g starts →
      (universeOf g starts).length + 1 ≤ n + s.length →
      expandOnce g (iterExpand g n s) = iterExpand g n s := by
  intro n
  induction n with
  | zero =>
    intro s hn hsub hlen
    have := (hn.subperm hsub).length_le
    omega
  | succ n ih =>
    intro s hn hsub hlen
    by_cases hfix : expandOnce g s = s
    · have h1 : iterExpand g (n + 1) s = s := iterExpand_of_fix g (n + 1) s hfix
      rw [h1]
      exact hfix
    · have hgrow := expandOnce_growth g s hn hfix
      show expandOnce g (iterExpand g n (expandOnce g s)) = iterExpand g n (expandOnce g s)
      exact ih (expandOnce g s) (nodup_expandOnce g s hn)
        (expandOnce_sub_universe g starts s hsub) (by omega)

theorem closureOf_fix (g : BGraph) (starts : List String) :
    expandOnce g (closureOf g starts) = closureOf g starts := by
  unfold closureOf
  refine iter_saturates g starts _ (addAll [] starts) (nodup_addAll [] starts List.nodup_nil) ?_ ?_
  · intro x hx
    rcases (mem_addAll [] starts x).mp hx with hx | hx
    · simp at hx
    · exact List.mem_append.mpr (Or.inl hx)
  · omega

theorem iterExpand_sound (g : BGraph) (starts : List String) (n : Nat)
    (s : List String) (hs : ∀ x ∈ s, ReachSpec g starts x) :
    ∀ x ∈ iterExpand g n s, ReachSpec g starts x := by
  induction n generalizing s with
  | zero => exact hs
  | succ n ih =>
    refine ih (expandOnce g s) ?_
    intro x hx
    rcases (mem_expandOnce g s x).mp hx with hx | ⟨l, hl, hx⟩
    · exact hs x hx
    · obtain ⟨r, hr, hpath⟩ := hs l hl
      exact ⟨r, hr, Relation.ReflTransGen.tail hpath hx⟩

theorem closureOf_sound (g : BGraph) (starts : List String) :
    ∀ x ∈ closureOf g starts, ReachSpec g starts x := by
  refine iterExpand_sound g starts _ (addAll [] starts) ?_
  intro x hx
  rcases (mem_addAll [] starts x).mp hx with hx | hx
  · exact absurd hx (List.not_mem_nil x)
  · exact ⟨x, hx, Relation.ReflTransGen.refl⟩

theorem closureOf_complete (g : BGraph) (starts : List String) (x : String)
    (h : ReachSpec g starts x) : x ∈ closureOf g starts := by
  obtain ⟨r, hr, hpath⟩ := h
  induction hpath with
  | refl =>
    exact sub_iterExpand g _ _ ((mem_addAll [] starts r).mpr (Or.inr hr))
  | tail hp hstep ih =>
    rw [← closureOf_fix g starts]
    next b c =>
    exact (mem_expandOnce g (closureOf g starts) c).mpr (Or.inr ⟨b, ih, hstep⟩)

theorem mem_closureOf (g : BGraph) (starts : List String) (x : String) :
    x ∈ closureOf g starts ↔ ReachSpec g starts x :=
  ⟨fun h => closureOf_sound g starts x h, closureOf_complete g starts x⟩


theorem firstUnresolved_eq_none_iff (g : BGraph) (roots : List String) :
    firstUnresolved g roots = none ↔ AllResolvable g roots := by
  unfold firstUnresolved AllResolvable
  rw [List.find?_eq_none]
  constructor
  · intro h
    constructor
    · intro r hr
      have := h r (List.mem_append.mpr (Or.inl hr))
      simpa using this
    · intro p hp d hd
      have := h d (List.mem_append.mpr (Or.inr (List.mem_flatMap.mpr ⟨p, hp, hd⟩)))
      simpa using this
  · rintro ⟨hroots, hdeps⟩ l hl
    rcases List.mem_append.mp hl with hl | hl
    · simpa using hroots l hl
    · obtain ⟨p, hp, hd⟩ := List.mem_flatMap.mp hl
      simpa using hdeps p hp l hd

theorem CycleAt_iff_mem_closure (g : BGraph) (l : String) :
    CycleAt g l ↔ l ∈ closureOf g (depsOf g l) := by
  rw [mem_closureOf]
  unfold CycleAt ReachSpec
  constructor
  · intro h
    rcases Relation.TransGen.head'_iff.mp h with ⟨c, hc, hpath⟩
    exact ⟨c, hc, hpath⟩
  · rintro ⟨c, hc, hpath⟩
    exact Relation.TransGen.head'_iff.mpr ⟨c, hc, hpath⟩

theorem cyclicLabel_eq_none_iff (g : BGraph) :
    cyclicLabel g = none ↔ ∀ l ∈ labels g, ¬ CycleAt g l := by
  unfold cyclicLabel
  rw [List.find?_eq_none]
  constructor
  · intro h l hl hc
    have := h l hl
    rw [CycleAt_iff_mem_closure] at hc
    simp [hc] at this
  · intro h l hl
    have := h l hl
    rw [CycleAt_iff_mem_closure] at this
    simpa using this

theorem cyclicLabel_eq_some (g : BGraph) (l : String)
    (h : cyclicLabel g = some l) : l ∈ labels g ∧ CycleAt g l := by
  have hm := List.mem_of_find?_eq_some h
  have hp := List.find?_some h
  rw [CycleAt_iff_mem_closure]
  constructor
  · exact hm
  · simpa using hp

/-- C7 (amended): `resolve` returns, on success, exactly the requested
targets plus their transitive dependency closure; it fails with
UnresolvedDependency exactly when some referenced label is absent; it fails
with CycleDetected exactly when every referenced label resolves and a
dependency cycle exists (unresolved references are reported first); and on any
load-time error no build action runs. -/
theorem c7_amended_resolve (g : BGraph) (roots : List String) :
    (∀ ts, resolve g roots = .ok ts → ∀ x, x ∈ ts ↔ ReachSpec g roots x) ∧
    ((∃ l, resolve g roots = .error (.UnresolvedDependency l)) ↔
      ¬ AllResolvable g roots) ∧
    ((∃ l, resolve g roots = .error (.CycleDetected l)) ↔
      (AllResolvable g roots ∧ ∃ l ∈ labels g, CycleAt g l)) ∧
    (∀ e, resolve g roots = .error e → (buildInvocation g roots).2 = []) := by
  refine ⟨?_, ?_, ?_, ?_⟩
  · intro ts hok x
    unfold resolve at hok
    rcases hfu : firstUnresolved g roots with _ | l
    · rw [hfu] at hok
      rcases hcy : cyclicLabel g with _ | l
      · rw [hcy] at hok
        simp only at hok
        cases hok
        exact mem_closureOf g roots x
      · rw [hcy] at hok
        exact absurd hok (by simp)
    · rw [hfu] at hok
      exact absurd hok (by simp)
  · constructor
    · rintro ⟨l, hl⟩
      unfold resolve at hl
      rcases hfu : firstUnresolved g roots with _ | l2
      · rw [hfu] at hl
        rcases hcy : cyclicLabel g with _ | l2 <;> rw [hcy] at hl <;>
          exact absurd hl (by simp)
      · intro hres
        rw [← firstUnresolved_eq_none_iff] at hres
        rw [hres] at hfu
        exact absurd hfu (by simp)
    · intro h
      rcases hfu : firstUnresolved g roots with _ | l
      · exact absurd ((firstUnresolved_eq_none_iff g roots).mp hfu) h
      · refine ⟨l, ?_⟩
        unfold resolve
        rw [hfu]
  · constructor
    · rintro ⟨l, hl⟩
      unfold resolve at hl
      rcases hfu : firstUnresolved g roots with _ | l2
      · rw [hfu] at hl
        rcases hcy : cyclicLabel g with _ | l2
        · rw [hcy] at hl
          exact absurd hl (by simp)
        · rw [hcy] at hl
          simp only [Except.error.injEq, LoadErr.CycleDetected.injEq] at hl
          subst hl
          have hc := cyclicLabel_eq_some g l2 hcy
          exact ⟨(firstUnresolved_eq_none_iff g roots).mp hfu, l2, hc.1, hc.2⟩
      · rw [hfu] at hl
        exact absurd hl (by simp)
    · rintro ⟨hres, l, hl, hc⟩
      have hfu : firstUnresolved g roots = none :=
        (firstUnresolved_eq_none_iff g roots).mpr hres
      rcases hcy : cyclicLabel g with _ | l2
      · exact absurd hc ((cyclicLabel_eq_none_iff g).mp hcy l hl)
      · refine ⟨l2, ?_⟩
        unfold resolve
        rw [hfu, hcy]
  · intro e he
    unfold buildInvocation
    rw [he]

/-- C7 counterexample: in a graph with both an unresolved dependency and a
cycle, resolution reports the unresolved dependency, so it does not fail with
CycleDetected even though a cycle exists: the claim's CycleDetected iff is
false as stated. -/
theorem c7_counterexample_cycle_masked_by_unresolved :
    ¬ ((∃ l, resolve [("a", ["b"]), ("c", ["c"])] ["a"] =
          .error (.CycleDetected l)) ↔
        ∃ l ∈ labels [("a", ["b"]), ("c", ["c"])],
          CycleAt [("a", ["b"]), ("c", ["c"])] l) := by
  intro h
  have hcyc : ∃ l ∈ labels [("a", ["b"]), ("c", ["c"])],
      CycleAt [("a", ["b"]), ("c", ["c"])] l :=
    ⟨"c", by decide, Relation.TransGen.single (by decide)⟩
  obtain ⟨l, hl⟩ := h.mpr hcyc
  have hres : resolve [("a", ["b"]), ("c", ["c"])] ["a"] =
      .error (.UnresolvedDependency "b") := rfl
  rw [hres] at hl
  simp at hl
